import Mathlib

/-!
Shallow embedding of the single-header ECS runtime (src/ECS.h) for
verification of its specification.

Modelling conventions:
* `TypeIndex` (C++ `std::type_index` / registered `uint32_t`) is a `Nat`;
  two indices are equal iff they denote the same type.
* Component values are modelled as `Nat` (`Value`); the C++ code is generic
  over the component type `T`, but every claim under scrutiny is about the
  bookkeeping around the value, not the value itself.
* `std::unordered_map` fields are modelled as association lists with unique
  keys (uniqueness is guaranteed by `insert`-after-`find` in the source and
  is taken as a hypothesis where a theorem needs it).
* Entities are handled through C++ pointers in the source; pointer identity
  is modelled by the entity id, which is unique per world by construction
  (`World::create` pre-increments a counter).
* Emissions of events are recorded in a returned trace (`List Event`);
  subscriber callbacks run host code and are outside the embedding, so the
  subscriber registry is modelled separately and `emitNotifies` gives the
  exact ordered list of subscribers a given `emit` call invokes.
-/

namespace ECS

abbrev TypeIndex := Nat

abbrev Subscriber := Nat

abbrev Value := Nat

/-- Trace entries for the three event structs of `namespace Events`. -/
inductive Event where
  | onEntityCreated (id : Nat)
  | onEntityDestroyed (id : Nat)
  | onComponentAssigned (t : TypeIndex) (entId : Nat) (v : Value)
deriving DecidableEq

/-- `ECS::Entity`: id, component map (`TypeIndex -> container`), pending flag.
The back pointer to the owning world is implicit (operations that need the
world take it as an argument). -/
structure Entity where
  id : Nat
  components : List (TypeIndex × Value)
  bPendingDestroy : Bool
deriving DecidableEq

/-- `Entity::InvalidEntityId = 0`. -/
def InvalidEntityId : Nat := 0

/-- `Entity::has<T>()`: `components.find(index) != components.end()`. -/
def Entity.hasComp (e : Entity) (t : TypeIndex) : Bool :=
  e.components.any (fun p => p.1 == t)

/-- Variadic `Entity::has<T, V, ...>()`: conjunction of the single checks. -/
def Entity.hasAll (e : Entity) (ts : List TypeIndex) : Bool :=
  ts.all (fun t => e.hasComp t)

/-- `Entity::get<T>()`: a valid handle (`some` value) when the component is
present, the null handle (`none`) otherwise. -/
def Entity.getComp (e : Entity) (t : TypeIndex) : Option Value :=
  (e.components.find? (fun p => p.1 == t)).map (fun p => p.2)

/-- `Entity::assign<T>(args...)`: when the component exists its value is
rebuilt in place inside the existing container (the map entry is updated,
no entry added or moved); otherwise a fresh container is allocated and
inserted. Either way one `OnComponentAssigned<T>` event is emitted carrying
the entity and a handle to the new value. Returns the updated entity and
the emitted trace. -/
def Entity.assign (e : Entity) (t : TypeIndex) (v : Value) : Entity × List Event :=
  if e.components.any (fun p => p.1 == t) then
    ({ e with components := e.components.map (fun p => if p.1 == t then (p.1, v) else p) },
     [Event.onComponentAssigned t e.id v])
  else
    ({ e with components := e.components ++ [(t, v)] },
     [Event.onComponentAssigned t e.id v])

/-- `ECS::World`: entity sequence in creation order, subscriber registry,
last issued entity id. Systems are host code and not needed by the claims. -/
structure World where
  entities : List Entity
  subscribers : List (TypeIndex × List Subscriber)
  lastEntityId : Nat
deriving DecidableEq

/-- `World::getCount()`. -/
def getCount (w : World) : Nat :=
  w.entities.length

/-- `World::getByIndex(idx)`: `nullptr` when out of range. -/
def getByIndex (w : World) (idx : Nat) : Option Entity :=
  if idx ≥ getCount w then none else w.entities[idx]?

/-- `World::create()`: pre-increments `lastEntityId`, constructs the entity
with the new id, appends it to the sequence, emits `OnEntityCreated`. -/
def create (w : World) : World × Entity × List Event :=
  let newId := w.lastEntityId + 1
  let e : Entity := ⟨newId, [], false⟩
  ({ w with lastEntityId := newId, entities := w.entities ++ [e] },
   e, [Event.onEntityCreated newId])

/-- `create` iterated `n` times (the returned entity and trace dropped). -/
def createN (w : World) : Nat → World
  | 0 => w
  | n + 1 => createN (create w).1 n

/-- Lookup of an entity pointer by its id (pointer identity is modelled by
the id, which `create` keeps unique per world). -/
def findEnt (w : World) (eid : Nat) : Option Entity :=
  w.entities.find? (fun e => e.id == eid)

/-- `ent->bPendingDestroy = true` for the entity referenced by `eid`. -/
def setPending (w : World) (eid : Nat) : World :=
  { w with entities :=
      w.entities.map (fun e => if e.id == eid then { e with bPendingDestroy := true } else e) }

/-- `entities.erase(std::remove(entities.begin(), entities.end(), ent), ...)`:
removes the referenced entity from the sequence. -/
def eraseEnt (w : World) (eid : Nat) : World :=
  { w with entities := w.entities.filter (fun e => !(e.id == eid)) }

/-- `World::destroy(ent, immediate)`. `none` models the null pointer; a
`some eid` that no longer resolves models a reference to an already-erased
entity (the repeated-immediate case the header documents as a no-op). -/
def destroy (w : World) (ent : Option Nat) (immediate : Bool) : World × List Event :=
  match ent with
  | none => (w, [])
  | some eid =>
    match findEnt w eid with
    | none => (w, [])
    | some e =>
      if e.bPendingDestroy then
        (if immediate then eraseEnt w eid else w, [])
      else
        (if immediate then eraseEnt (setPending w eid) eid else setPending w eid,
         [Event.onEntityDestroyed eid])

/-- A sequence of `destroy` requests against the same entity reference,
with the given immediate flags, concatenating the emitted traces. -/
def destroySeq (w : World) (eid : Nat) : List Bool → World × List Event
  | [] => (w, [])
  | imm :: rest =>
    let r := destroy w (some eid) imm
    let r2 := destroySeq r.1 eid rest
    (r2.1, r.2 ++ r2.2)

/-- `World::cleanup()`: erase-remove of every pending-destroy entity,
counting the removals; returns whether the count is positive. -/
def cleanup (w : World) : World × Bool :=
  let count := w.entities.countP (fun e => e.bPendingDestroy)
  ({ w with entities := w.entities.filter (fun e => !e.bPendingDestroy) },
   decide (count > 0))

/-- `World::reset()`: walks the sequence in order emitting
`OnEntityDestroyed` for each entity not already pending, deallocates all,
clears the sequence and sets `lastEntityId = 0`. -/
def reset (w : World) : World × List Event :=
  ({ w with entities := [], lastEntityId := 0 },
   (w.entities.filter (fun e => !e.bPendingDestroy)).map
     (fun e => Event.onEntityDestroyed e.id))

/-- `World::getById(id)`: `nullptr` for the invalid id 0 or an id beyond the
last issued one, otherwise a linear scan of the sequence. -/
def getById (w : World) (i : Nat) : Option Entity :=
  if i == InvalidEntityId || w.lastEntityId < i then none
  else w.entities.find? (fun e => e.id == i)

/-- `World::subscribe<T>(subscriber)`: appends to type `T`'s list, creating
the map entry with a singleton list when absent. -/
def subscribe (subs : List (TypeIndex × List Subscriber)) (t : TypeIndex)
    (s : Subscriber) : List (TypeIndex × List Subscriber) :=
  if subs.any (fun kv => kv.1 == t) then
    subs.map (fun kv => if kv.1 == t then (kv.1, kv.2 ++ [s]) else kv)
  else
    subs ++ [(t, [s])]

/-- The ordered list of subscribers a call `World::emit<T>(event)` invokes:
the registered list for `T`'s type index, in list order, or nothing when no
entry exists. `emit` calls `receive` on exactly these, first to last, before
returning. -/
def emitNotifies (subs : List (TypeIndex × List Subscriber)) (t : TypeIndex) :
    List Subscriber :=
  match subs.find? (fun kv => kv.1 == t) with
  | none => []
  | some kv => kv.2

/-- Modelled from the spec: the body of `World::unsubscribe<T>` in
src/ECS.h (lines 898-910) uses a variable named `found` without ever
performing the lookup `auto found = subscribers.find(index)` that every
sibling function performs, so the body does not compile when instantiated.
The spec states the intended behaviour: remove the matching entries for the
subscriber from type `T`'s list, and drop the map entry entirely when the
list becomes empty. -/
def unsubscribeIntended (subs : List (TypeIndex × List Subscriber))
    (t : TypeIndex) (s : Subscriber) : List (TypeIndex × List Subscriber) :=
  subs.filterMap (fun kv =>
    if kv.1 == t then
      let l := kv.2.filter (fun x => !(x == s))
      if l.isEmpty then none else some (kv.1, l)
    else some kv)

/-- `World::unsubscribeAll(subscriber)` as written: the range-for binds each
map entry BY VALUE (`for (auto kv : subscribers)`), so the erase-remove runs
on a copy of the subscriber list and the real list is never modified; the
only observable effect is that the whole map entry is erased when the copy
becomes empty, that is, when the original list held nothing but `s`.
Entries whose list holds any other subscriber are kept completely
unchanged. (The `subscribers.erase(kv.first)` inside the loop additionally
invalidates the live iterator, which is undefined behaviour in C++; the
embedding records the intended per-entry effect.) -/
def unsubscribeAll (subs : List (TypeIndex × List Subscriber))
    (s : Subscriber) : List (TypeIndex × List Subscriber) :=
  subs.filter (fun kv => !((kv.2.filter (fun x => !(x == s))).isEmpty))

/-- The filter of `Internal::EntityComponentIterator<Types...>`: the
entity qualifies when it carries all required components and is either not
pending destroy or pending entities are included. `Internal::EntityIterator`
(the all-entities view) is the `ts = []` instance: it has no component
check, and `hasAll` over the empty list is `true`. -/
def qualifies (ts : List TypeIndex) (inc : Bool) (e : Entity) : Bool :=
  e.hasAll ts && (!e.bPendingDestroy || inc)

/-- The skip loop of `operator++`: starting at `i`, advance while the index
is in range and the entity there does not qualify; the result is the first
qualifying index at or after `i`, or an index at or past `getCount()`
(the end state). -/
def scanFrom (w : World) (ts : List TypeIndex) (inc : Bool) (i : Nat) : Nat :=
  if h : i < w.entities.length then
    if qualifies ts inc w.entities[i] then i
    else scanFrom w ts inc (i + 1)
  else i
termination_by w.entities.length - i

/-- One range-for over a view: while the cursor is not at end, visit the
entity at the cursor and advance with `operator++` (an increment followed by
the skip loop). The C++ loop terminates because the index strictly
increases; `fuel` (instantiated with `getCount()`) bounds the iterations in
the embedding. -/
def visitFrom (w : World) (ts : List TypeIndex) (inc : Bool) :
    Nat → Nat → List Entity
  | _, 0 => []
  | i, fuel + 1 =>
    if h : i < w.entities.length then
      w.entities[i] :: visitFrom w ts inc (scanFrom w ts inc (i + 1)) fuel
    else []

/-- The index `begin()` lands on, per the `EntityComponentView` /
`EntityView` constructor: the first cursor starts at index 0 and is
pre-advanced once (with the skipping `operator++`) when the world is empty
or entity 0 does not qualify. -/
def beginIdx (w : World) (ts : List TypeIndex) (inc : Bool) : Nat :=
  if h : 0 < w.entities.length then
    if qualifies ts inc w.entities[0] then 0
    else scanFrom w ts inc 1
  else 1

/-- The entities visited, in order, by iterating
`World::each<Types...>(includePendingDestroy)` (and, with `ts = []`,
`World::all(includePendingDestroy)`); the eager callback overloads iterate
the same views. -/
def eachResult (w : World) (ts : List TypeIndex) (inc : Bool) : List Entity :=
  visitFrom w ts inc (beginIdx w ts inc) w.entities.length

/-- C2 (code bug): `World::unsubscribeAll` binds each registry entry by
value, so with a registry holding one entry for type index 5 whose list is
`[1, 2]`, the call `unsubscribeAll(2)` leaves the registry unchanged and a
subsequent `emit` for that type still notifies subscriber 2, contradicting
the claim that the subscriber is removed from every list. -/
theorem unsubscribeAll_leaves_shared_list :
    unsubscribeAll [(5, [1, 2])] 2 = [(5, [1, 2])]
  ∧ 2 ∈ emitNotifies (unsubscribeAll [(5, [1, 2])] 2) 5 := by decide

/-- C10: `World::cleanup` removes exactly the pending-destroy entities,
preserving the relative creation order of every surviving entity (the
survivors form a sublist of the original sequence), and returns `true` iff
at least one entity was removed. -/
theorem cleanup_removes_exactly_pending (w : World) :
    List.Sublist (cleanup w).1.entities w.entities
  ∧ (∀ e, e ∈ (cleanup w).1.entities ↔ e ∈ w.entities ∧ e.bPendingDestroy = false)
  ∧ ((cleanup w).2 = true ↔ ∃ e ∈ w.entities, e.bPendingDestroy = true) := by
  refine ⟨List.filter_sublist _, ?_, ?_⟩
  · intro e
    simp [cleanup, List.mem_filter]
  · simp [cleanup, List.countP_pos_iff]

/-- C9: `World::reset` leaves the sequence empty with `getCount() = 0`,
resets the id counter to 0 so the next `create` issues id 1, and emits
`OnEntityDestroyed` exactly for the entities that were not already
pending-destroy (one event per such entity, none for the pending ones). -/
theorem reset_clears_and_restarts_ids (w : World) :
    (reset w).1.entities = []
  ∧ getCount (reset w).1 = 0
  ∧ (reset w).1.lastEntityId = 0
  ∧ (create (reset w).1).2.1.id = 1
  ∧ (∀ i, Event.onEntityDestroyed i ∈ (reset w).2 ↔
       ∃ e ∈ w.entities, e.bPendingDestroy = false ∧ e.id = i)
  ∧ (reset w).2.length = (w.entities.filter (fun e => !e.bPendingDestroy)).length := by
  refine ⟨rfl, rfl, rfl, rfl, ?_, by simp [reset]⟩
  intro i
  simp [reset, List.mem_map, List.mem_filter, and_assoc]

theorem createN_ids_aux (n : Nat) : ∀ w : World,
    (createN w n).entities.map (fun e => e.id)
      = w.entities.map (fun e => e.id) ++ List.range' (w.lastEntityId + 1) n
  ∧ (createN w n).lastEntityId = w.lastEntityId + n := by
  induction n with
  | zero => intro w; simp [createN]
  | succ n ih =>
    intro w
    have h := ih (create w).1
    refine ⟨?_, ?_⟩
    · rw [show createN w (n + 1) = createN (create w).1 n from rfl, h.1]
      simp [create, List.range'_succ, List.append_assoc]
    · rw [show createN w (n + 1) = createN (create w).1 n from rfl, h.2]
      simp [create]
      omega

/-- C5: starting from a fresh (or freshly reset) world, `N` calls to
`World::create` append entities whose ids are exactly `1, 2, ..., N` in
that order, `getCount()` is `N` afterwards, and id 0 is never issued. -/
theorem create_issues_sequential_ids (w : World) (n : Nat)
    (h1 : w.entities = []) (h2 : w.lastEntityId = 0) :
    (createN w n).entities.map (fun e => e.id) = List.range' 1 n
  ∧ getCount (createN w n) = n
  ∧ InvalidEntityId ∉ (createN w n).entities.map (fun e => e.id) := by
  have h := createN_ids_aux n w
  rw [h1, h2] at h
  simp only [List.map_nil, List.nil_append] at h
  refine ⟨h.1, ?_, ?_⟩
  · have : ((createN w n).entities.map (fun e => e.id)).length = n := by
      rw [h.1, List.length_range']
    simpa [getCount] using this
  · rw [h.1]
    intro hmem
    rw [List.mem_range'_1] at hmem
    simp [InvalidEntityId] at hmem

theorem create_issues_sequential_ids_witness :
    (createN ⟨[], [], 0⟩ 3).entities.map (fun e => e.id) = List.range' 1 3
  ∧ getCount (createN ⟨[], [], 0⟩ 3) = 3
  ∧ InvalidEntityId ∉ (createN ⟨[], [], 0⟩ 3).entities.map (fun e => e.id) :=
  create_issues_sequential_ids ⟨[], [], 0⟩ 3 rfl rfl

/-- C8: `World::getById` returns `none` for id 0, for an id beyond the last
issued one, and for an id no entity in the sequence carries (e.g. after
destroy plus cleanup); for an id carried by an entity of the sequence (and
within the issued range) it returns an entity of the sequence with exactly
that id, found by the linear scan. -/
theorem getById_absent_or_match (w : World) (i : Nat) :
    getById w 0 = none
  ∧ (w.lastEntityId < i → getById w i = none)
  ∧ ((∀ e ∈ w.entities, e.id ≠ i) → getById w i = none)
  ∧ ((∃ e ∈ w.entities, e.id = i) → i ≠ 0 → i ≤ w.lastEntityId →
       ∃ e, getById w i = some e ∧ e.id = i ∧ e ∈ w.entities) := by
  refine ⟨by simp [getById, InvalidEntityId], ?_, ?_, ?_⟩
  · intro h
    simp [getById, h]
  · intro h
    unfold getById
    split
    · rfl
    · rw [List.find?_eq_none]
      intro e he
      simp [h e he]
  · rintro ⟨e, he, hid⟩ h0 hle
    unfold getById
    rw [if_neg (by simp [InvalidEntityId]; omega)]
    have hsome : (w.entities.find? (fun e => e.id == i)).isSome = true := by
      rw [List.find?_isSome]
      exact ⟨e, he, by simp [hid]⟩
    obtain ⟨a, ha⟩ := Option.isSome_iff_exists.mp hsome
    exact ⟨a, ha, by simpa using List.find?_some ha, List.mem_of_find?_eq_some ha⟩

theorem getById_absent_or_match_witness :
    getById ⟨[⟨1, [], false⟩], [], 1⟩ 0 = none
  ∧ getById ⟨[⟨1, [], false⟩], [], 1⟩ 2 = none
  ∧ (∃ e, getById ⟨[⟨1, [], false⟩], [], 1⟩ 1 = some e ∧ e.id = 1
        ∧ e ∈ (⟨[⟨1, [], false⟩], [], 1⟩ : World).entities) :=
  ⟨(getById_absent_or_match ⟨[⟨1, [], false⟩], [], 1⟩ 1).1,
   (getById_absent_or_match ⟨[⟨1, [], false⟩], [], 1⟩ 2).2.1 (by decide),
   (getById_absent_or_match ⟨[⟨1, [], false⟩], [], 1⟩ 1).2.2.2
     ⟨⟨1, [], false⟩, by simp, rfl⟩ (by decide) (by decide)⟩

theorem hasComp_of_getComp (e : Entity) (t : TypeIndex) (v : Value)
    (h : e.getComp t = some v) : e.hasComp t = true := by
  unfold Entity.getComp at h
  unfold Entity.hasComp
  cases hf : e.components.find? (fun p => p.1 == t) with
  | none => rw [hf] at h; simp at h
  | some a =>
    rw [List.any_eq_true]
    exact ⟨a, List.mem_of_find?_eq_some hf, by simpa using List.find?_some hf⟩

theorem find?_map_replace (l : List (TypeIndex × Value)) (t : TypeIndex) (v : Value)
    (h : l.any (fun p => p.1 == t) = true) :
    ((l.map (fun p => if p.1 == t then (p.1, v) else p)).find?
      (fun p => p.1 == t)).map (fun p => p.2) = some v := by
  induction l with
  | nil => simp at h
  | cons p rest ih =>
    by_cases hp : p.1 = t
    · simp [List.find?_cons, hp]
    · have h2 : rest.any (fun p => p.1 == t) = true := by
        rw [List.any_cons] at h
        simpa [hp] using h
      have hhead : (if p.1 == t then ((p.1, v) : TypeIndex × Value) else p) = p := by
        simp [hp]
      simp only [List.map_cons, hhead]
      rw [List.find?_cons_of_neg _ (by simp [hp])]
      exact ih h2

/-- C4: each `Entity::assign<T>(v)` emits exactly one
`OnComponentAssigned<T>` event carrying the entity and the new value;
afterwards `get<T>()` returns a valid handle whose value is `T(v)` and
`has<T>()` is true; when `T` was already present the value is rebuilt in
the existing container (the component map keeps exactly the same keys, no
entry added), otherwise a single new container is appended. -/
theorem assign_replaces_and_emits (e : Entity) (t : TypeIndex) (v : Value) :
    (e.assign t v).2 = [Event.onComponentAssigned t e.id v]
  ∧ (e.assign t v).1.getComp t = some v
  ∧ (e.assign t v).1.hasComp t = true
  ∧ (e.assign t v).1.components.map Prod.fst
      = (if e.hasComp t then e.components.map Prod.fst
         else e.components.map Prod.fst ++ [t]) := by
  cases hc : e.components.any (fun p => p.1 == t) with
  | true =>
    have hget : (e.assign t v).1.getComp t = some v := by
      simp only [Entity.assign, if_pos hc, Entity.getComp]
      exact find?_map_replace e.components t v hc
    refine ⟨by simp [Entity.assign, hc], hget, hasComp_of_getComp _ _ _ hget, ?_⟩
    rw [if_pos (show e.hasComp t = true from hc)]
    simp only [Entity.assign, if_pos hc, List.map_map]
    apply List.map_congr_left
    intro p _
    by_cases hp : p.1 = t <;> simp [Function.comp, hp]
  | false =>
    have hfind : e.components.find? (fun p => p.1 == t) = none := by
      rw [List.find?_eq_none]
      exact List.any_eq_false.mp hc
    have hget : (e.assign t v).1.getComp t = some v := by
      simp only [Entity.assign, hc, Bool.false_eq_true, if_false, Entity.getComp]
      rw [List.find?_append, hfind]
      simp [List.find?_cons]
    refine ⟨by simp [Entity.assign, hc], hget, hasComp_of_getComp _ _ _ hget, ?_⟩
    rw [if_neg (by simp [Entity.hasComp, hc])]
    simp [Entity.assign, hc]

theorem emitNotifies_cons_eq (kv : TypeIndex × List Subscriber)
    (rest : List (TypeIndex × List Subscriber)) (t : TypeIndex)
    (h : (kv.1 == t) = true) : emitNotifies (kv :: rest) t = kv.2 := by
  simp [emitNotifies, List.find?_cons, h]

theorem emitNotifies_cons_ne (kv : TypeIndex × List Subscriber)
    (rest : List (TypeIndex × List Subscriber)) (t : TypeIndex)
    (h : (kv.1 == t) = false) : emitNotifies (kv :: rest) t = emitNotifies rest t := by
  simp [emitNotifies, List.find?_cons, h]

theorem emitNotifies_no_key (l : List (TypeIndex × List Subscriber)) (t : TypeIndex)
    (h : ∀ kv ∈ l, (kv.1 == t) = false) : emitNotifies l t = [] := by
  unfold emitNotifies
  rw [List.find?_eq_none.mpr (fun kv hkv => by simp [h kv hkv])]

theorem subscribe_cons_ne (kv : TypeIndex × List Subscriber)
    (rest : List (TypeIndex × List Subscriber)) (t : TypeIndex) (s : Subscriber)
    (h : (kv.1 == t) = false) :
    subscribe (kv :: rest) t s = kv :: subscribe rest t s := by
  have h' : ¬kv.1 = t := by simpa using h
  cases hr : rest.any (fun kv => kv.1 == t) with
  | true => simp [subscribe, List.any_cons, h, hr, h']
  | false => simp [subscribe, List.any_cons, h, hr, h']

theorem emitNotifies_subscribe (subs : List (TypeIndex × List Subscriber))
    (t : TypeIndex) (s : Subscriber) :
    emitNotifies (subscribe subs t s) t = emitNotifies subs t ++ [s] := by
  induction subs with
  | nil =>
    simp [subscribe, emitNotifies]
  | cons kv rest ih =>
    by_cases hkv : (kv.1 == t) = true
    · have hkt : kv.1 = t := by simpa using hkv
      have hsub : subscribe (kv :: rest) t s
          = (kv.1, kv.2 ++ [s])
            :: rest.map (fun kv => if kv.1 == t then (kv.1, kv.2 ++ [s]) else kv) := by
        simp [subscribe, List.any_cons, hkv, hkt]
      rw [hsub, emitNotifies_cons_eq _ _ _ (show ((kv.1, kv.2 ++ [s]).1 == t) = true from hkv),
          emitNotifies_cons_eq kv rest t hkv]
    · have hkv' : (kv.1 == t) = false := by simpa using hkv
      rw [subscribe_cons_ne kv rest t s hkv', emitNotifies_cons_ne kv _ t hkv',
          emitNotifies_cons_ne kv rest t hkv']
      exact ih

/-- C7: the subscribers `World::emit<T>` invokes are exactly the current
list registered for `T`, in order; `World::subscribe<T>` appends to that
list, so delivery order is registration order (subscribing `a` then `b`
makes `emit` notify `a` before `b`); with no entry for `T`, `emit` invokes
nobody. -/
theorem emit_in_registration_order (subs : List (TypeIndex × List Subscriber))
    (t : TypeIndex) (s a b : Subscriber) :
    emitNotifies (subscribe subs t s) t = emitNotifies subs t ++ [s]
  ∧ (subs.all (fun kv => !(kv.1 == t)) = true → emitNotifies subs t = [])
  ∧ emitNotifies (subscribe (subscribe subs t a) t b) t
      = emitNotifies subs t ++ [a, b] := by
  refine ⟨emitNotifies_subscribe subs t s, ?_, ?_⟩
  · intro h
    apply emitNotifies_no_key
    intro kv hkv
    have := List.all_eq_true.mp h kv hkv
    simpa using this
  · rw [emitNotifies_subscribe, emitNotifies_subscribe, List.append_assoc]
    rfl

theorem emit_in_registration_order_witness :
    ([] : List (TypeIndex × List Subscriber)).all (fun kv => !(kv.1 == 3)) = true
  ∧ emitNotifies ([] : List (TypeIndex × List Subscriber)) 3 = []
  ∧ emitNotifies (subscribe (subscribe [] 3 1) 3 2) 3
      = emitNotifies ([] : List (TypeIndex × List Subscriber)) 3 ++ [1, 2] :=
  ⟨by decide, (emit_in_registration_order [] 3 0 1 2).2.1 (by decide),
   (emit_in_registration_order [] 3 0 1 2).2.2⟩

theorem unsubscribeIntended_no_key (t : TypeIndex) (s : Subscriber) :
    ∀ l : List (TypeIndex × List Subscriber),
    (∀ kv ∈ l, (kv.1 == t) = false) → unsubscribeIntended l t s = l := by
  intro l
  induction l with
  | nil => intro _; rfl
  | cons kv rest ih =>
    intro h
    have hkv := h kv (List.mem_cons_self kv rest)
    have hrest := fun kv' h' => h kv' (List.mem_cons_of_mem kv h')
    simp only [unsubscribeIntended, List.filterMap_cons, hkv, Bool.false_eq_true, if_false]
    rw [show rest.filterMap _ = unsubscribeIntended rest t s from rfl, ih hrest]

theorem unsubscribeIntended_emit (t : TypeIndex) (s : Subscriber) :
    ∀ subs : List (TypeIndex × List Subscriber), (subs.map Prod.fst).Nodup →
    emitNotifies (unsubscribeIntended subs t s) t
      = (emitNotifies subs t).filter (fun x => !(x == s))
  ∧ ((emitNotifies subs t).all (fun x => x == s) = true →
      (unsubscribeIntended subs t s).find? (fun kv => kv.1 == t) = none) := by
  intro subs
  induction subs with
  | nil =>
    intro _
    exact ⟨by simp [unsubscribeIntended, emitNotifies], fun _ => rfl⟩
  | cons kv rest ih =>
    intro hnd
    rw [List.map_cons, List.nodup_cons] at hnd
    by_cases hkv : (kv.1 == t) = true
    · have hkt : kv.1 = t := by simpa using hkv
      have hrest : ∀ kv' ∈ rest, (kv'.1 == t) = false := by
        intro kv' h'
        by_contra hc
        have hc' : kv'.1 = t := by simpa using hc
        exact hnd.1 (by rw [hkt, ← hc']; exact List.mem_map_of_mem Prod.fst h')
      have hrw : unsubscribeIntended rest t s = rest :=
        unsubscribeIntended_no_key t s rest hrest
      have hfind : rest.find? (fun kv => kv.1 == t) = none :=
        List.find?_eq_none.mpr (fun kv' h' => by simp [hrest kv' h'])
      by_cases hl : (kv.2.filter (fun x => !(x == s))).isEmpty = true
      · have hdrop : unsubscribeIntended (kv :: rest) t s = rest := by
          simp only [unsubscribeIntended, List.filterMap_cons, hkv, if_true, hl]
          exact hrw
        rw [hdrop, emitNotifies_cons_eq kv rest t hkv]
        refine ⟨?_, fun _ => hfind⟩
        rw [emitNotifies_no_key rest t hrest, List.isEmpty_iff.mp hl]
      · have hl' : (kv.2.filter (fun x => !(x == s))).isEmpty = false := by
          simpa using hl
        have hkeep : unsubscribeIntended (kv :: rest) t s
            = (kv.1, kv.2.filter (fun x => !(x == s))) :: rest := by
          simp only [unsubscribeIntended, List.filterMap_cons, hkv, if_true, hl',
            Bool.false_eq_true, if_false]
          rw [show rest.filterMap _ = unsubscribeIntended rest t s from rfl, hrw]
        rw [hkeep,
          emitNotifies_cons_eq _ _ _
            (show ((kv.1, kv.2.filter (fun x => !(x == s))).1 == t) = true from hkv),
          emitNotifies_cons_eq kv rest t hkv]
        refine ⟨rfl, ?_⟩
        intro hall
        exfalso
        have hnil : kv.2.filter (fun x => !(x == s)) = [] := by
          rw [List.filter_eq_nil_iff]
          intro x hx
          have := List.all_eq_true.mp hall x hx
          simp [this]
        rw [hnil] at hl'
        simp at hl'
    · have hkv' : (kv.1 == t) = false := by simpa using hkv
      have hcons : unsubscribeIntended (kv :: rest) t s
          = kv :: unsubscribeIntended rest t s := by
        simp only [unsubscribeIntended, List.filterMap_cons, hkv', Bool.false_eq_true,
          if_false]
      have ihh := ih hnd.2
      rw [hcons, emitNotifies_cons_ne kv _ t hkv', emitNotifies_cons_ne kv rest t hkv']
      refine ⟨ihh.1, ?_⟩
      intro hall
      rw [List.find?_cons_of_neg _ (by simp [hkv'])]
      exact ihh.2 hall

/-- C1 (code bug; behaviour modelled from the spec because the source body
of `World::unsubscribe<T>` does not compile): the intended `unsubscribe`
removes exactly the matching entries for the subscriber from type `T`'s
list, a subsequent `emit<T>` no longer notifies that subscriber, and when
the list becomes empty the map entry for `T` is dropped entirely. -/
theorem unsubscribe_restores_silence (subs : List (TypeIndex × List Subscriber))
    (t : TypeIndex) (s : Subscriber) (h : (subs.map Prod.fst).Nodup) :
    emitNotifies (unsubscribeIntended subs t s) t
      = (emitNotifies subs t).filter (fun x => !(x == s))
  ∧ s ∉ emitNotifies (unsubscribeIntended subs t s) t
  ∧ ((emitNotifies subs t).all (fun x => x == s) = true →
      (unsubscribeIntended subs t s).find? (fun kv => kv.1 == t) = none) := by
  obtain ⟨h1, h3⟩ := unsubscribeIntended_emit t s subs h
  refine ⟨h1, ?_, h3⟩
  rw [h1]
  intro hmem
  rw [List.mem_filter] at hmem
  simp at hmem

theorem unsubscribe_restores_silence_witness :
    (([(5, [2, 7, 2])] : List (TypeIndex × List Subscriber)).map Prod.fst).Nodup
  ∧ emitNotifies (unsubscribeIntended [(5, [2, 7, 2])] 5 2) 5
      = (emitNotifies [(5, [2, 7, 2])] 5).filter (fun x => !(x == 2))
  ∧ 2 ∉ emitNotifies (unsubscribeIntended [(5, [2, 7, 2])] 5 2) 5
  ∧ (unsubscribeIntended [(5, [2, 2])] 5 2).find? (fun kv => kv.1 == 5) = none :=
  ⟨by decide,
   (unsubscribe_restores_silence [(5, [2, 7, 2])] 5 2 (by decide)).1,
   (unsubscribe_restores_silence [(5, [2, 7, 2])] 5 2 (by decide)).2.1,
   (unsubscribe_restores_silence [(5, [2, 2])] 5 2 (by decide)).2.2 (by decide)⟩

theorem destroy_events_cases (w : World) (eid : Nat) (imm : Bool) :
    (destroy w (some eid) imm).2 = [] ∨
    (destroy w (some eid) imm).2 = [Event.onEntityDestroyed eid] := by
  cases hf : findEnt w eid with
  | none => left; simp [destroy, hf]
  | some e =>
    cases hp : e.bPendingDestroy with
    | true => left; simp [destroy, hf, hp]
    | false => right; simp [destroy, hf, hp]

theorem destroy_emits_iff (w : World) (eid : Nat) (imm : Bool) :
    (destroy w (some eid) imm).2 = [Event.onEntityDestroyed eid] ↔
    (∃ e, findEnt w eid = some e ∧ e.bPendingDestroy = false) := by
  cases hf : findEnt w eid with
  | none => simp [destroy, hf]
  | some e =>
    cases hp : e.bPendingDestroy with
    | true => simp [destroy, hf, hp]
    | false => simp [destroy, hf, hp]

theorem destroy_pending_preserved (w : World) (eid : Nat) (imm : Bool)
    (h : ∀ e ∈ w.entities, e.id = eid → e.bPendingDestroy = true) :
    (destroy w (some eid) imm).2 = []
  ∧ (∀ e ∈ (destroy w (some eid) imm).1.entities, e.id = eid →
      e.bPendingDestroy = true) := by
  cases hf : findEnt w eid with
  | none =>
    refine ⟨by simp [destroy, hf], ?_⟩
    intro e' he' hid'
    simp only [destroy, hf] at he'
    exact h e' he' hid'
  | some e =>
    have hmem := List.mem_of_find?_eq_some hf
    have hid : e.id = eid := by simpa using List.find?_some hf
    have hp : e.bPendingDestroy = true := h e hmem hid
    refine ⟨by simp [destroy, hf, hp], ?_⟩
    intro e' he' hid'
    cases imm with
    | true =>
      simp [destroy, hf, hp, eraseEnt, List.mem_filter] at he'
      exact h e' he'.1 hid'
    | false =>
      simp [destroy, hf, hp] at he'
      exact h e' he' hid'

theorem destroy_emit_then_pending (w : World) (eid : Nat) (imm : Bool)
    (h : (destroy w (some eid) imm).2 = [Event.onEntityDestroyed eid]) :
    ∀ e ∈ (destroy w (some eid) imm).1.entities, e.id = eid →
      e.bPendingDestroy = true := by
  cases hf : findEnt w eid with
  | none => simp [destroy, hf] at h
  | some e =>
    cases hp : e.bPendingDestroy with
    | true => simp [destroy, hf, hp] at h
    | false =>
      intro e' he' hid'
      cases imm with
      | true =>
        simp [destroy, hf, hp, eraseEnt, setPending, List.mem_filter] at he'
        exact absurd hid' he'.2
      | false =>
        simp [destroy, hf, hp, setPending, List.mem_map] at he'
        obtain ⟨a, _, rfl⟩ := he'
        by_cases haid : a.id = eid
        · simp [haid]
        · simp [haid] at hid'

theorem destroySeq_silent (eid : Nat) : ∀ (imms : List Bool) (w : World),
    (∀ e ∈ w.entities, e.id = eid → e.bPendingDestroy = true) →
    (destroySeq w eid imms).2 = [] := by
  intro imms
  induction imms with
  | nil => intro w _; rfl
  | cons imm rest ih =>
    intro w h
    have h1 := destroy_pending_preserved w eid imm h
    simp only [destroySeq, h1.1, List.nil_append]
    exact ih _ h1.2

theorem destroySeq_length (eid : Nat) : ∀ (imms : List Bool) (w : World),
    (destroySeq w eid imms).2.length ≤ 1 := by
  intro imms
  induction imms with
  | nil => intro w; simp [destroySeq]
  | cons imm rest ih =>
    intro w
    rcases destroy_events_cases w eid imm with h | h
    · simp only [destroySeq, h, List.nil_append]
      exact ih _
    · have hp := destroy_emit_then_pending w eid imm h
      have hs := destroySeq_silent eid rest _ hp
      simp [destroySeq, h, hs]

/-- C3: `World::destroy` on a null reference is a no-op; a call on an owned
entity emits `OnEntityDestroyed` exactly when the entity is live (present
and not pending-destroy) at the time of the call; and over any sequence of
destroy calls on the same entity, whatever the immediate flags, the event
fires at most once (re-requesting destroy on an already-pending or
already-erased entity emits nothing). -/
theorem destroy_emits_once (w : World) (eid : Nat) (imm : Bool) (imms : List Bool) :
    destroy w none imm = (w, [])
  ∧ ((destroy w (some eid) imm).2 = [Event.onEntityDestroyed eid] ↔
      ∃ e, findEnt w eid = some e ∧ e.bPendingDestroy = false)
  ∧ (destroySeq w eid imms).2.count (Event.onEntityDestroyed eid) ≤ 1 := by
  refine ⟨rfl, destroy_emits_iff w eid imm, ?_⟩
  calc (destroySeq w eid imms).2.count (Event.onEntityDestroyed eid)
      ≤ (destroySeq w eid imms).2.length := List.count_le_length _ _
    _ ≤ 1 := destroySeq_length eid imms w

theorem scanFrom_ge (w : World) (ts : List TypeIndex) (inc : Bool) (i : Nat) :
    i ≤ scanFrom w ts inc i := by
  generalize hn : w.entities.length - i = n
  induction n generalizing i with
  | zero =>
    rw [scanFrom, dif_neg (show ¬i < w.entities.length by omega)]
  | succ n ih =>
    by_cases h : i < w.entities.length
    · rw [scanFrom, dif_pos h]
      split
      · exact Nat.le_refl i
      · have h2 := ih (i + 1) (by omega)
        omega
    · rw [scanFrom, dif_neg h]

theorem scanFrom_filter (w : World) (ts : List TypeIndex) (inc : Bool) (i : Nat) :
    (w.entities.drop (scanFrom w ts inc i)).filter (qualifies ts inc)
      = (w.entities.drop i).filter (qualifies ts inc) := by
  generalize hn : w.entities.length - i = n
  induction n generalizing i with
  | zero =>
    rw [scanFrom, dif_neg (show ¬i < w.entities.length by omega)]
  | succ n ih =>
    by_cases h : i < w.entities.length
    · rw [scanFrom, dif_pos h]
      by_cases hq : qualifies ts inc w.entities[i] = true
      · rw [if_pos hq]
      · rw [if_neg hq, ih (i + 1) (by omega), List.drop_eq_getElem_cons h,
          List.filter_cons]
        simp [hq]
    · rw [scanFrom, dif_neg h]

theorem scanFrom_qualifies (w : World) (ts : List TypeIndex) (inc : Bool) (i : Nat) :
    ∀ e, w.entities[scanFrom w ts inc i]? = some e → qualifies ts inc e = true := by
  generalize hn : w.entities.length - i = n
  induction n generalizing i with
  | zero =>
    intro e he
    rw [scanFrom, dif_neg (show ¬i < w.entities.length by omega)] at he
    rw [List.getElem?_eq_none (by omega)] at he
    cases he
  | succ n ih =>
    intro e he
    by_cases h : i < w.entities.length
    · by_cases hq : qualifies ts inc w.entities[i] = true
      · rw [scanFrom, dif_pos h, if_pos hq] at he
        rw [List.getElem?_eq_getElem h] at he
        cases he
        exact hq
      · rw [scanFrom, dif_pos h, if_neg hq] at he
        exact ih (i + 1) (by omega) e he
    · rw [scanFrom, dif_neg h] at he
      rw [List.getElem?_eq_none (by omega)] at he
      cases he

theorem visitFrom_spec (w : World) (ts : List TypeIndex) (inc : Bool) :
    ∀ (fuel i : Nat), w.entities.length - i ≤ fuel →
      (∀ e, w.entities[i]? = some e → qualifies ts inc e = true) →
      visitFrom w ts inc i fuel = (w.entities.drop i).filter (qualifies ts inc) := by
  intro fuel
  induction fuel with
  | zero =>
    intro i hfuel _
    rw [List.drop_eq_nil_of_le (by omega), List.filter_nil]
    rfl
  | succ fuel ih =>
    intro i hfuel hcanon
    by_cases h : i < w.entities.length
    · have hq : qualifies ts inc w.entities[i] = true :=
        hcanon _ (List.getElem?_eq_getElem h)
      rw [show visitFrom w ts inc i (fuel + 1)
            = w.entities[i] :: visitFrom w ts inc (scanFrom w ts inc (i + 1)) fuel
          from by rw [visitFrom, dif_pos h]]
      have hge := scanFrom_ge w ts inc (i + 1)
      rw [ih (scanFrom w ts inc (i + 1)) (by omega)
            (scanFrom_qualifies w ts inc (i + 1)),
          scanFrom_filter w ts inc (i + 1),
          List.drop_eq_getElem_cons h, List.filter_cons, if_pos hq]
    · rw [show visitFrom w ts inc i (fuel + 1) = [] from by rw [visitFrom, dif_neg h],
          List.drop_eq_nil_of_le (by omega), List.filter_nil]

/-- C6: iterating `World::each<T1..Tn>(includePendingDestroy)` (the view the
eager callback overload also walks) visits exactly the entities of the
World's sequence that have all the required components, skipping
pending-destroy entities unless `includePendingDestroy` is true, in
sequence (creation) order — the visited list is the order-preserving filter
of the sequence; with no component filter (`ts = []`, the
`Internal::EntityIterator` of `World::all`, which has no component check)
the same holds with only the pending-destroy rule. -/
theorem each_visits_exactly_matching (w : World) (ts : List TypeIndex) (inc : Bool) :
    eachResult w ts inc = w.entities.filter (qualifies ts inc)
  ∧ eachResult w [] inc = w.entities.filter (fun e => !e.bPendingDestroy || inc) := by
  have main : ∀ ts', eachResult w ts' inc = w.entities.filter (qualifies ts' inc) := by
    intro ts'
    unfold eachResult beginIdx
    by_cases h0 : 0 < w.entities.length
    · rw [dif_pos h0]
      by_cases hq : qualifies ts' inc w.entities[0] = true
      · rw [if_pos hq,
          visitFrom_spec w ts' inc w.entities.length 0 (by omega)
            (fun e he => by
              rw [List.getElem?_eq_getElem h0] at he
              cases he
              exact hq),
          List.drop_zero]
      · rw [if_neg hq,
          visitFrom_spec w ts' inc w.entities.length (scanFrom w ts' inc 1)
            (by omega) (scanFrom_qualifies w ts' inc 1),
          scanFrom_filter w ts' inc 1]
        conv_rhs => rw [← List.drop_zero w.entities, List.drop_eq_getElem_cons h0]
        rw [List.filter_cons, if_neg hq]
    · rw [dif_neg h0]
      have hnil : w.entities = [] := List.length_eq_zero.mp (by omega)
      simp [hnil, visitFrom]
  refine ⟨main ts, ?_⟩
  rw [main []]
  apply List.filter_congr
  intro e _
  simp [qualifies, Entity.hasAll]

end ECS
